import Mathlib

/-!
Verification of the plasmid-space core against its specification.

This file gives a shallow embedding of the two core source modules,
`plasmid_tokenizer.py` (the `PlasmidGPTTokenizer` class) and `utils.py`
(sequence extraction, validation, ORF and motif scanning, copy-number
estimation), and proves or refutes the specified properties.

Conventions of the embedding:
- Python strings are `List Char`; Python `str.upper`/`str.lower` act
  characterwise via `Char.toUpper`/`Char.toLower`.
- A Python dict `{k: v}` is an association list `List (K × V)` with
  distinct keys; `dict.get` is `List.lookup`.  The inverted dict
  `{v: k for k, v in d.items()}` resolves a duplicated value to the
  last key inserted, so its lookup is `find?` over the reversed list.
- Loops that are not structurally recursive carry a fuel argument that
  the wrapper instantiates with a bound large enough to never run out;
  lemmas carry the corresponding `length ≤ fuel` hypothesis.
-/

namespace PlasmidSpace

/-! ### Character classes used by the tokenizer regex `<[A-Z_]+:[A-Z_]+>|<[A-Z]+>` -/

/-- Membership in the regex class `[A-Z]`. -/
def isAZ (c : Char) : Bool := 'A' ≤ c && c ≤ 'Z'

/-- Membership in the regex class `[A-Z_]`. -/
def isAZU (c : Char) : Bool := ('A' ≤ c && c ≤ 'Z') || c = '_'

/-! ### Tokenizer vocabulary

`PlasmidGPTTokenizer.__init__` loads a json object mapping token strings to
integer ids (`self.vocab`) and inverts it (`self.id_to_token`).  The special
token strings are the fixed literals below; their ids are looked up with
fallback defaults `0, 2, 1, 3` (`self.vocab.get(self.bos_token, 0)` etc.).
No validation of any kind is performed on the mapping. -/

abbrev Vocab := List (List Char × Nat)

def bosTok : List Char := "<BOS>".toList
def eosTok : List Char := "<EOS>".toList
def padTok : List Char := "<PAD>".toList
def unkTok : List Char := "<UNK>".toList
def seqTok : List Char := "<SEQ>".toList

/-- Embedding of the pure part of `PlasmidGPTTokenizer.__init__`: the fields
computed from the loaded `vocab` mapping.  The constructor performs no check
on the mapping; every mapping yields a tokenizer. -/
structure Tokenizer where
  vocab : Vocab
  bos_token_id : Nat
  eos_token_id : Nat
  pad_token_id : Nat
  unk_token_id : Nat
deriving DecidableEq, Repr

/-- `self.vocab.get(key, default)`. -/
def vocabGetD (vocab : Vocab) (k : List Char) (d : Nat) : Nat :=
  (vocab.lookup k).getD d

/-- The `__init__` body: id fields with the source's fallback defaults. -/
def tokInit (vocab : Vocab) : Tokenizer :=
  { vocab := vocab
    bos_token_id := vocabGetD vocab bosTok 0
    eos_token_id := vocabGetD vocab eosTok 2
    pad_token_id := vocabGetD vocab padTok 1
    unk_token_id := vocabGetD vocab unkTok 3 }

/-- `self.id_to_token = {v: k for k, v in self.vocab.items()}` followed by
`.get(i)`: for a duplicated id the last inserted token wins, i.e. the first
match in the reversed item list. -/
def idToToken (vocab : Vocab) (i : Nat) : Option (List Char) :=
  (vocab.reverse.find? (fun p => p.2 == i)).map Prod.fst

/-! ### The special-token pattern

`re.compile(r'<[A-Z_]+:[A-Z_]+>|<[A-Z]+>')`, used by `encode` via
`finditer`.  Because the character classes exclude `:` and `>`, the greedy
`+` with backtracking is equivalent to maximal munch followed by a single
delimiter check, which is how `matchCond`/`matchCtrl` are written. -/

/-- Try the alternative `<[A-Z_]+:[A-Z_]+>` at the head of `s`; on success
return the matched span and the remainder. -/
def matchCond : List Char → Option (List Char × List Char)
  | [] => none
  | c :: s =>
    if c = '<' then
      match s.takeWhile isAZU, s.dropWhile isAZU with
      | a₀ :: as, ':' :: s₂ =>
        match s₂.takeWhile isAZU, s₂.dropWhile isAZU with
        | b₀ :: bs, '>' :: s₃ =>
          some ('<' :: (a₀ :: as) ++ ':' :: (b₀ :: bs) ++ ['>'], s₃)
        | _, _ => none
      | _, _ => none
    else none

/-- Try the alternative `<[A-Z]+>` at the head of `s`. -/
def matchCtrl : List Char → Option (List Char × List Char)
  | [] => none
  | c :: s =>
    if c = '<' then
      match s.takeWhile isAZ, s.dropWhile isAZ with
      | a₀ :: as, '>' :: s₂ => some ('<' :: (a₀ :: as) ++ ['>'], s₂)
      | _, _ => none
    else none

/-- The full pattern: first alternative preferred, as in the regex. -/
def matchSpecial (s : List Char) : Option (List Char × List Char) :=
  match matchCond s with
  | some r => some r
  | none => matchCtrl s

/-! ### encode

`encode` walks the text with `finditer`; characters before each match are
encoded one at a time via `self.vocab.get(char, self.unk_token_id)`, each
matched span as a single id.  Equivalently (and as embedded here): at every
position try the pattern; on a match consume it, otherwise consume one
character.  The fuel argument bounds the number of scanning steps. -/

def encodeGo (vocab : Vocab) (unkId : Nat) : Nat → List Char → List Nat
  | _, [] => []
  | 0, _ => []
  | f + 1, c :: rest =>
    match matchSpecial (c :: rest) with
    | some (tok, r) => vocabGetD vocab tok unkId :: encodeGo vocab unkId f r
    | none => vocabGetD vocab [c] unkId :: encodeGo vocab unkId f rest

/-- `PlasmidGPTTokenizer.encode(text, add_bos)`. -/
def encode (t : Tokenizer) (text : List Char) (add_bos : Bool) : List Nat :=
  (if add_bos then [t.bos_token_id] else []) ++
    encodeGo t.vocab t.unk_token_id text.length text

/-! ### decode

`decode` renders each id through `self.id_to_token.get(token_id,
self.unk_token)` — the fallback is the literal string `"<UNK>"` — and, when
`skip_special_tokens` is set, drops renderings equal to one of the four
control literals before joining. -/

/-- Rendering of one id: `self.id_to_token.get(token_id, self.unk_token)`. -/
def renderTok (vocab : Vocab) (i : Nat) : List Char :=
  (idToToken vocab i).getD unkTok

/-- The membership test `token in [bos, eos, pad, unk]` from `decode`. -/
def isControlLiteral (t : List Char) : Bool :=
  t == bosTok || t == eosTok || t == padTok || t == unkTok

def decodeToks (vocab : Vocab) (skip : Bool) : List Nat → List (List Char)
  | [] => []
  | i :: rest =>
    let tok := renderTok vocab i
    if skip && isControlLiteral tok then decodeToks vocab skip rest
    else tok :: decodeToks vocab skip rest

/-- `PlasmidGPTTokenizer.decode(token_ids, skip_special_tokens)`. -/
def decode (t : Tokenizer) (ids : List Nat) (skip : Bool) : List Char :=
  (decodeToks t.vocab skip ids).flatten

/-! ### SequenceSanitizer — `extract_dna_from_generated_text` (utils.py)

Steps of the source: (1) `re.sub(r'<[^>]+>', '', text)`; (2)
`re.compile(r'[ATGCatgc]+').findall(text)`, i.e. the maximal runs of
nucleotide letters in either case; (3) keep the uppercased runs of length
≥ `min_length` and return `max(valid_matches, key=len)` — Python's `max`
keeps the first element attaining the maximum; (4) otherwise keep only the
uppercased A/T/G/C characters of the whole stripped text and return that
if long enough, else the empty string. -/

/-- Membership in the regex class `[ATGCatgc]`. -/
def isNucCI (c : Char) : Bool :=
  c = 'A' || c = 'T' || c = 'G' || c = 'C' ||
  c = 'a' || c = 't' || c = 'g' || c = 'c'

/-- The test `c.upper() in 'ATGC'`. -/
def isNucUpper (c : Char) : Bool :=
  c.toUpper = 'A' || c.toUpper = 'T' || c.toUpper = 'G' || c.toUpper = 'C'

/-- One step of `re.sub(r'<[^>]+>', '', text)`: at a `<`, a span up to the
next `>` (with at least one character in between) is dropped; otherwise the
character is kept.  Fuel bounds the scanning steps. -/
def stripGo : Nat → List Char → List Char
  | _, [] => []
  | 0, s => s
  | f + 1, c :: rest =>
    if c = '<' then
      match rest.takeWhile (fun x => x ≠ '>'), rest.dropWhile (fun x => x ≠ '>') with
      | _ :: _, '>' :: r => stripGo f r
      | _, _ => c :: stripGo f rest
    else c :: stripGo f rest

/-- `re.sub(r'<[^>]+>', '', text)`. -/
def stripTokens (s : List Char) : List Char := stripGo s.length s

/-- `findall(r'[ATGCatgc]+', text)`: the maximal nucleotide runs, via an
accumulator for the (reversed) run currently being read. -/
def splitRunsGo (cur : List Char) : List Char → List (List Char)
  | [] => if cur.isEmpty then [] else [cur.reverse]
  | c :: rest =>
    if isNucCI c then splitRunsGo (c :: cur) rest
    else if cur.isEmpty then splitRunsGo [] rest
    else cur.reverse :: splitRunsGo [] rest

def splitRuns (s : List Char) : List (List Char) := splitRunsGo [] s

/-- `max(l, key=len)` over a nonempty prefix: Python keeps the first
element attaining the maximal length (`>` comparison against the current
best). -/
def pyMaxGo (best : List Char) : List (List Char) → List Char
  | [] => best
  | m :: rest => pyMaxGo (if best.length < m.length then m else best) rest

def pyMaxLen : List (List Char) → List Char
  | [] => []
  | m :: rest => pyMaxGo m rest

/-- `[m.upper() for m in matches if len(m) >= min_length]`. -/
def validMatches (text : List Char) (min_length : Nat) : List (List Char) :=
  ((splitRuns (stripTokens text)).filter
    (fun m => min_length ≤ m.length)).map (fun m => m.map Char.toUpper)

/-- `''.join(c.upper() for c in text if c.upper() in 'ATGC')` over the
stripped text. -/
def cleanedText (text : List Char) : List Char :=
  ((stripTokens text).filter isNucUpper).map Char.toUpper

/-- `extract_dna_from_generated_text(text, min_length)`. -/
def extract_dna_from_generated_text (text : List Char) (min_length : Nat) : List Char :=
  let valid := validMatches text min_length
  if valid.isEmpty then
    let cleaned := cleanedText text
    if min_length ≤ cleaned.length then cleaned else []
  else pyMaxLen valid

/-! ### SequenceSanitizer — `validate_dna_sequence` (utils.py)

The source returns `(bool, message)`; the message strings interpolate the
data shown below (the offender set is rendered by iterating a Python set,
whose order is unspecified, so the embedding keeps the structured data). -/

/-- Outcome of `validate_dna_sequence`, one constructor per return site. -/
inductive ValidationResult where
  | emptySequence : ValidationResult
  | invalidCharacters (offenders : Finset Char) : ValidationResult
  | tooShort (len : Nat) : ValidationResult
  | tooLong (len : Nat) : ValidationResult
  | ok : ValidationResult
deriving DecidableEq

/-- `set(sequence.upper()) - set('ATGC')`. -/
def offendingChars (s : List Char) : Finset Char :=
  (s.map Char.toUpper).toFinset \ {'A', 'T', 'G', 'C'}

/-- `validate_dna_sequence(sequence)`. -/
def validate_dna_sequence (s : List Char) : ValidationResult :=
  if s.isEmpty then .emptySequence
  else if ¬ (offendingChars s = ∅) then .invalidCharacters (offendingChars s)
  else if s.length < 100 then .tooShort s.length
  else if 50000 < s.length then .tooLong s.length
  else .ok

/-! ### MetricsEngine — `estimate_copy_number` (utils.py)

Annotations reach this function as untyped dicts; the embedding models the
two keys it reads (`name`, `type`) as fields, with the empty string for an
absent key (the source's `.get` defaults make a missing key behave exactly
like an empty/non-matching value in every test performed here). -/

structure AnnIn where
  name : List Char
  ty : List Char
deriving DecidableEq, Repr

/-- Python substring test `p in s`, via the first matching offset. -/
def findFromAux (s p : List Char) : Nat → Nat → Option Nat
  | 0, _ => none
  | c + 1, i => if (s.drop i).take p.length == p then some i else findFromAux s p c (i + 1)

/-- `s.find(p, start)`: smallest `i ≥ start` with `s[i:i+len(p)] == p`,
`none` for Python's `-1`. -/
def strFindFrom (s p : List Char) (start : Nat) : Option Nat :=
  findFromAux s p (s.length + 1 - p.length - start) start

/-- `p in s`. -/
def strContains (s p : List Char) : Bool := (strFindFrom s p 0).isSome

def high_copy_origins : List (List Char) := ["pUC".toList, "ColE1".toList, "pMB1".toList]
def medium_copy_origins : List (List Char) := ["p15A".toList, "pSC101".toList]
def low_copy_origins : List (List Char) := ["pBR322".toList, "F".toList, "P1".toList]

def highCopyStr : List Char := "High (>100 copies/cell)".toList
def mediumCopyStr : List Char := "Medium (15-100 copies/cell)".toList
def lowCopyStr : List Char := "Low (1-15 copies/cell)".toList

/-- The guard `ann.get('type') == 'origin' or 'origin' in ann.get('name', '').lower()`. -/
def isOriginLike (a : AnnIn) : Bool :=
  a.ty == "origin".toList || strContains (a.name.map Char.toLower) "origin".toList

/-- The `for ann in annotations` loop body of `estimate_copy_number`:
within an origin-like annotation the high-copy set is tried first, then
medium, then low; the first annotation hitting any set returns its tier. -/
def copyFromAnns : List AnnIn → Option (List Char)
  | [] => none
  | a :: rest =>
    if isOriginLike a then
      if high_copy_origins.any (fun o => strContains a.name o) then some highCopyStr
      else if medium_copy_origins.any (fun o => strContains a.name o) then some mediumCopyStr
      else if low_copy_origins.any (fun o => strContains a.name o) then some lowCopyStr
      else copyFromAnns rest
    else copyFromAnns rest

/-- `estimate_copy_number(sequence, annotations)`. -/
def estimate_copy_number (sequence : List Char) (annotations : List AnnIn) : List Char :=
  match (if annotations.isEmpty then none else copyFromAnns annotations) with
  | some r => r
  | none =>
    if sequence.length < 3000 then highCopyStr
    else if sequence.length < 6000 then mediumCopyStr
    else lowCopyStr

/-! ### FeatureScanner — `find_orfs` (utils.py)

The source iterates over the two strands (forward and Biopython
reverse-complement), the three frame offsets, and the codon start positions
`range(frame, frame + length, 3)` with `length = 3 * ((len - frame) // 3)`.
At a start codon the inner loop `for end in range(start + 3, frame +
length, 3)` looks for the first in-frame stop codon and `break`s after it —
the `break` leaves only the inner loop, so the outer scan resumes at
`start + 3`, the codon right after the start codon. -/

/-- Biopython complement on the upper-case DNA alphabet used here (other
characters are untouched; only A/C/G/T sequences reach this function in the
pipeline, and only the length matters for the invariants proved below). -/
def complementChar (c : Char) : Char :=
  if c = 'A' then 'T' else if c = 'T' then 'A'
  else if c = 'C' then 'G' else if c = 'G' then 'C'
  else if c = 'a' then 't' else if c = 't' then 'a'
  else if c = 'c' then 'g' else if c = 'g' then 'c'
  else c

/-- `Seq.reverse_complement()`. -/
def reverseComplement (s : List Char) : List Char :=
  (s.map complementChar).reverse

/-- `str(seq_strand[i:i+3])`. -/
def codonAt (s : List Char) (i : Nat) : List Char := (s.drop i).take 3

def startCodons : List (List Char) := ["ATG".toList, "GTG".toList, "TTG".toList]
def stopCodons : List (List Char) := ["TAA".toList, "TAG".toList, "TGA".toList]

/-- The inner loop: scan `count` in-frame codon positions from `pos` for the
first stop codon. -/
def findStopFrom (s : List Char) : Nat → Nat → Option Nat
  | 0, _ => none
  | c + 1, pos =>
    if stopCodons.contains (codonAt s pos) then some pos
    else findStopFrom s c (pos + 3)

/-- The body of one outer-loop iteration at codon position `pos`, with
`lim = frame + length` the shared loop bound: on a start codon, find the
first in-frame stop codon before `lim`; emit `(start, stop-position)` iff
one is found and the span is long enough. -/
def scanPos (s : List Char) (lim min_length : Nat) (pos : Nat) : Option (Nat × Nat) :=
  if startCodons.contains (codonAt s pos) then
    match findStopFrom s ((lim - (pos + 3)) / 3) (pos + 3) with
    | some e => if min_length ≤ e - pos + 3 then some (pos, e) else none
    | none => none
  else none

/-- The outer loop over one strand/frame, carried exactly as the source
does: an accumulator appended to at each emission (`orfs.append(...)`);
only the raw `(start, stop-position)` pairs are accumulated here because
the appended dict's other fields are functions of them and of the running
count (`ORF_{len(orfs)+1}`), applied when the dicts are assembled below. -/
def scanFrameAcc (s : List Char) (lim min_length : Nat) :
    Nat → Nat → List (Nat × Nat) → List (Nat × Nat)
  | 0, _, acc => acc
  | c + 1, pos, acc =>
    scanFrameAcc s lim min_length c (pos + 3)
      (match scanPos s lim min_length pos with
       | some h => acc ++ [h]
       | none => acc)

/-- One strand/frame scan: positions `range(frame, frame + length, 3)`. -/
def scanFrame (s : List Char) (min_length frame : Nat) (acc : List (Nat × Nat)) :
    List (Nat × Nat) :=
  scanFrameAcc s (frame + 3 * ((s.length - frame) / 3)) min_length
    ((s.length - frame) / 3) frame acc

/-- The raw hits of the six nested scans, tagged with the strand, in
discovery order: forward strand frames 0,1,2 then reverse strand frames
0,1,2, exactly the source's loop nest. -/
def rawOrfs (seq : List Char) (min_length : Nat) : List (Bool × Nat × Nat) :=
  (scanFrame seq min_length 2 (scanFrame seq min_length 1
      (scanFrame seq min_length 0 []))).map (fun h => (true, h)) ++
  (let rc := reverseComplement seq
   (scanFrame rc min_length 2 (scanFrame rc min_length 1
      (scanFrame rc min_length 0 []))).map (fun h => (false, h)))

/-- One ORF annotation dict. `stop` is the dict's `'end'` key (`end` is
reserved in Lean). -/
structure Orf where
  ty : List Char
  start : Nat
  stop : Nat
  strand : Char
  length : Nat
  name : List Char
deriving DecidableEq, Repr

/-- Assembly of the appended dict from a raw hit `(s, e)` of strand
`fwd` on a sequence of length `n`; `k` is the number of previously
appended ORFs (`len(orfs)`). -/
def mkOrf (n : Nat) (k : Nat) (fwd : Bool) (h : Nat × Nat) : Orf :=
  { ty := "ORF".toList
    start := if fwd then h.1 else n - h.2 - 3
    stop := if fwd then h.2 + 3 else n - h.1
    strand := if fwd then '+' else '-'
    length := h.2 - h.1 + 3
    name := "ORF_".toList ++ (Nat.repr (k + 1)).toList }

/-- Stable insertion into a list sorted by `start` (Python's `list.sort`
is stable; an element with an equal key stays after earlier ones). -/
def insByStart (a : Orf) : List Orf → List Orf
  | [] => [a]
  | b :: l => if b.start ≤ a.start then b :: insByStart a l else a :: b :: l

def sortByStart (l : List Orf) : List Orf := l.foldl (fun acc a => insByStart a acc) []

/-- `find_orfs(sequence, min_length)`. -/
def find_orfs (seq : List Char) (min_length : Nat) : List Orf :=
  sortByStart (((rawOrfs seq min_length).enum).map
    (fun p => mkOrf seq.length p.1 p.2.1 p.2.2))

/-! ### FeatureScanner — `find_common_features` (utils.py) -/

structure Feature where
  name : List Char
  ty : List Char
  start : Nat
  stop : Nat
  strand : Char
deriving DecidableEq, Repr

def promoters : List (List Char × List Char) :=
  [("T7 Promoter".toList, "TAATACGACTCACTATAGGG".toList),
   ("T3 Promoter".toList, "AATTAACCCTCACTAAAGGG".toList),
   ("lac Promoter".toList, "TGGAATTGTGAGCGGATAACAATT".toList),
   ("tac Promoter".toList, "TTTACACTTTATGCTTCCGGCTC".toList)]

def terminators : List (List Char × List Char) :=
  [("T7 Terminator".toList,
      "CTAGCATAACCCCTTGGGGCCTCTAAACGGGTCTTGAGGGGTTTTTTG".toList),
   ("rrnB T1 Terminator".toList,
      "TCTCGTGGGCTCGTGTTGTGTGTATTTTTTTTGTTTAG".toList)]

def rbsPattern : List Char := "AGGAGG".toList

/-- First occurrence (or none) of one named motif, as one feature. -/
def motifFeature (sUpper : List Char) (ty : List Char)
    (nm : List Char × List Char) : Option Feature :=
  match strFindFrom sUpper nm.2 0 with
  | some pos =>
    some { name := nm.1, ty := ty, start := pos, stop := pos + nm.2.length, strand := '+' }
  | none => none

/-- The RBS `while True` loop: after a hit at `pos` the search resumes at
`pos + 1`, so overlapping occurrences are all reported.  Each iteration
advances the start, so `s.length + 1` steps of fuel suffice. -/
def rbsScan (sUpper : List Char) : Nat → Nat → List Feature
  | 0, _ => []
  | f + 1, start =>
    match strFindFrom sUpper rbsPattern start with
    | none => []
    | some pos =>
      { name := "RBS".toList, ty := "RBS".toList,
        start := pos, stop := pos + rbsPattern.length, strand := '+' } ::
        rbsScan sUpper f (pos + 1)

/-- `find_common_features(sequence)`. -/
def find_common_features (sequence : List Char) : List Feature :=
  let sUpper := sequence.map Char.toUpper
  promoters.filterMap (motifFeature sUpper "promoter".toList) ++
  terminators.filterMap (motifFeature sUpper "terminator".toList) ++
  rbsScan sUpper (sUpper.length + 1) 0

/-! ## Concrete sequences used by the claims -/

/-- The sequence `"ATG" + "CCC"*33 + "TAA"` of the spec's ORF example.
Note its length is 3 + 99 + 3 = 105, not the 102 the spec asserts. -/
def seqC5 : List Char := "ATG".toList ++ List.replicate 99 'C' ++ "TAA".toList

/-- The single annotation `find_orfs` emits on `seqC5` with `min_length = 102`. -/
def orfC5 : Orf :=
  { ty := "ORF".toList, start := 0, stop := 105, strand := '+', length := 105,
    name := "ORF_1".toList }

/-- C5, counterexample: the sequence `"ATG" + "CCC"*33 + "TAA"` has 105
nucleotides, not 102, and the single ORF annotation returned with
`min_length = 102` ends at 105, not 102, with length 105 — so the claimed
output `{start: 0, end: 102}` is not what the code returns. -/
theorem claim_C5_counterexample :
    seqC5.length = 105 ∧ find_orfs seqC5 102 = [orfC5] ∧
    orfC5.stop ≠ 102 ∧ orfC5.length ≠ 102 := by
  refine ⟨by decide, by decide, by decide, by decide⟩

/-- C5, amended: for the 105-nucleotide sequence `"ATG" + "CCC"*33 + "TAA"`,
`find_orfs` with `min_length = 102` returns exactly one annotation, a
forward-strand ORF with start 0, end 105, strand `'+'`; and with
`min_length = 200` it returns the empty list, over all six reading frames
including the reverse complement. -/
theorem claim_C5_theorem :
    find_orfs seqC5 102 = [orfC5] ∧ find_orfs seqC5 200 = [] := by
  refine ⟨by decide, by decide⟩

/-- The sequence exhibiting a shared stop codon: `ATG ATG TAA` in frame 0. -/
def seqC2 : List Char := "ATGATGTAA".toList

/-- C2, counterexample: on `"ATGATGTAA"` with `min_length = 6` the scan
emits two forward-frame-0 ORFs, `[0, 9)` and `[3, 9)`.  Both end at 9, so
they share the stop codon at positions 6–8, and the second one's start
codon (position 3) is nested between the first ORF's start and its stop —
scanning did not resume after the consumed stop codon. -/
theorem claim_C2_counterexample :
    find_orfs seqC2 6 =
      [{ ty := "ORF".toList, start := 0, stop := 9, strand := '+', length := 9,
         name := "ORF_1".toList },
       { ty := "ORF".toList, start := 3, stop := 9, strand := '+', length := 6,
         name := "ORF_2".toList }] ∧
    ((find_orfs seqC2 6).map Orf.stop = [9, 9] ∧
      (find_orfs seqC2 6).map Orf.start = [0, 3]) := by
  refine ⟨by decide, by decide, by decide⟩

/-- The annotation list refuting C3: a low-copy origin listed before a
high-copy origin. -/
def annsC3 : List AnnIn :=
  [{ name := "pBR322 origin".toList, ty := [] },
   { name := "pUC origin".toList, ty := [] }]

/-- C3, counterexample: with a pBR322 (low-copy) origin annotation listed
before a pUC (high-copy) origin annotation, `estimate_copy_number` returns
the Low tier, even though the list contains an origin annotation whose name
matches the curated high-copy set — the earlier low-copy origin decides. -/
theorem claim_C3_counterexample :
    estimate_copy_number (List.replicate 200 'A') annsC3 = lowCopyStr ∧
    (∃ a, a ∈ annsC3 ∧ isOriginLike a = true ∧
      high_copy_origins.any (fun o => strContains a.name o) = true) ∧
    lowCopyStr ≠ highCopyStr := by
  refine ⟨by decide, ⟨{ name := "pUC origin".toList, ty := [] }, by decide⟩, by decide⟩

/-- The mapping refuting C4: every required control token is absent and two
token strings share one id. -/
def vocabC4 : Vocab := [("A".toList, 5), ("C".toList, 5)]

/-- C4, counterexample: on a mapping missing every required control token
(begin/end/pad/unknown/sequence-start) and mapping two token strings to the
same id, the constructor does not fail: it produces a tokenizer with the
fallback control ids 0/2/1/3, and that tokenizer is usable — it encodes and
decodes (`decode (encode "CC") = "CC"`), resolving the duplicated id to the
last token inserted. -/
theorem claim_C4_counterexample :
    (vocabC4.lookup bosTok = none ∧ vocabC4.lookup eosTok = none ∧
     vocabC4.lookup padTok = none ∧ vocabC4.lookup unkTok = none ∧
     vocabC4.lookup seqTok = none) ∧
    (("A".toList, 5) ∈ vocabC4 ∧ ("C".toList, 5) ∈ vocabC4 ∧
      "A".toList ≠ "C".toList) ∧
    tokInit vocabC4 =
      { vocab := vocabC4, bos_token_id := 0, eos_token_id := 2,
        pad_token_id := 1, unk_token_id := 3 } ∧
    decode (tokInit vocabC4) (encode (tokInit vocabC4) "CC".toList false) false =
      "CC".toList := by
  refine ⟨by decide, by decide, by decide, by decide⟩

/-! ## Token shapes and scanning lemmas

The spec's data model (§3) fixes the shapes of vocabulary tokens: condition
tokens match `<[A-Z_]+:[A-Z_]+>`, control tokens match `<[A-Z]+>`, and the
remaining tokens are single characters.  The round-trip property is proved
for texts concatenated from tokens of these shapes. -/

/-- Shape `<[A-Z_]+:[A-Z_]+>` of a condition token. -/
def CondShaped (t : List Char) : Prop :=
  ∃ a b : List Char, a ≠ [] ∧ b ≠ [] ∧ (∀ c ∈ a, isAZU c = true) ∧
    (∀ c ∈ b, isAZU c = true) ∧ t = '<' :: a ++ ':' :: b ++ ['>']

/-- Shape `<[A-Z]+>` of a control token. -/
def CtrlShaped (t : List Char) : Prop :=
  ∃ a : List Char, a ≠ [] ∧ (∀ c ∈ a, isAZ c = true) ∧ t = '<' :: a ++ ['>']

/-- Shape of a single-character token (any character other than `<`; in the
loaded vocabulary these are the nucleotides A/C/G/T). -/
def CharShaped (t : List Char) : Prop := ∃ c : Char, c ≠ '<' ∧ t = [c]

theorem takeWhile_split {p : Char → Bool} :
    ∀ (a : List Char) (x : Char) (r : List Char), (∀ c ∈ a, p c = true) →
      p x = false →
      (a ++ x :: r).takeWhile p = a ∧ (a ++ x :: r).dropWhile p = x :: r := by
  intro a
  induction a with
  | nil =>
    intro x r _ hx
    simp [List.takeWhile_cons, List.dropWhile_cons, hx]
  | cons c a ih =>
    intro x r ha hx
    have hc : p c = true := ha c (by simp)
    have := ih x r (fun d hd => ha d (by simp [hd])) hx
    simp [List.takeWhile_cons, List.dropWhile_cons, hc, this.1, this.2]

theorem isAZU_of_isAZ {c : Char} (h : isAZ c = true) : isAZU c = true := by
  simp only [isAZ, Bool.and_eq_true] at h
  simp [isAZU, h.1, h.2]

theorem matchCond_cond {a b rest : List Char}
    (ha : a ≠ []) (hb : b ≠ []) (hca : ∀ c ∈ a, isAZU c = true)
    (hcb : ∀ c ∈ b, isAZU c = true) :
    matchCond ('<' :: (a ++ ':' :: (b ++ '>' :: rest))) =
      some ('<' :: (a ++ ':' :: (b ++ ['>'])), rest) := by
  obtain ⟨a₀, as, rfl⟩ := List.exists_cons_of_ne_nil ha
  obtain ⟨b₀, bs, rfl⟩ := List.exists_cons_of_ne_nil hb
  have h1 := takeWhile_split (p := isAZU) (a₀ :: as) ':' ((b₀ :: bs) ++ '>' :: rest)
    hca (by decide)
  have h2 := takeWhile_split (p := isAZU) (b₀ :: bs) '>' rest hcb (by decide)
  simp only [List.cons_append, List.append_assoc, List.nil_append,
    List.append_nil] at h1 h2 ⊢
  simp [matchCond, h1.1, h1.2, h2.1, h2.2]

theorem matchCond_ctrl {a rest : List Char}
    (ha : a ≠ []) (hca : ∀ c ∈ a, isAZ c = true) :
    matchCond ('<' :: (a ++ '>' :: rest)) = none := by
  obtain ⟨a₀, as, rfl⟩ := List.exists_cons_of_ne_nil ha
  have h1 := takeWhile_split (p := isAZU) (a₀ :: as) '>' rest
    (fun c hc => isAZU_of_isAZ (hca c hc)) (by decide)
  simp only [List.cons_append, List.append_assoc, List.nil_append,
    List.append_nil] at h1 ⊢
  simp [matchCond, h1.1, h1.2]

theorem matchCtrl_ctrl {a rest : List Char}
    (ha : a ≠ []) (hca : ∀ c ∈ a, isAZ c = true) :
    matchCtrl ('<' :: (a ++ '>' :: rest)) = some ('<' :: (a ++ ['>']), rest) := by
  obtain ⟨a₀, as, rfl⟩ := List.exists_cons_of_ne_nil ha
  have h1 := takeWhile_split (p := isAZ) (a₀ :: as) '>' rest hca (by decide)
  simp only [List.cons_append, List.append_assoc, List.nil_append,
    List.append_nil] at h1 ⊢
  simp [matchCtrl, h1.1, h1.2]

theorem matchSpecial_cond {t rest : List Char} (h : CondShaped t) :
    matchSpecial (t ++ rest) = some (t, rest) := by
  obtain ⟨a, b, ha, hb, hca, hcb, rfl⟩ := h
  have hm := @matchCond_cond _ _ rest ha hb hca hcb
  simp only [List.cons_append, List.append_assoc, List.nil_append,
    List.append_nil] at hm ⊢
  simp [matchSpecial, hm]

theorem matchSpecial_ctrl {t rest : List Char} (h : CtrlShaped t) :
    matchSpecial (t ++ rest) = some (t, rest) := by
  obtain ⟨a, ha, hca, rfl⟩ := h
  have hm1 := @matchCond_ctrl _ rest ha hca
  have hm2 := @matchCtrl_ctrl _ rest ha hca
  simp only [List.cons_append, List.append_assoc, List.nil_append,
    List.append_nil] at hm1 hm2 ⊢
  simp [matchSpecial, hm1, hm2]

theorem matchSpecial_char {c : Char} {rest : List Char} (h : c ≠ '<') :
    matchSpecial (c :: rest) = none := by
  simp [matchSpecial, matchCond, matchCtrl, h]

/-- A token of any of the three vocabulary shapes is nonempty. -/
theorem shaped_cons {t : List Char}
    (h : CondShaped t ∨ CtrlShaped t ∨ CharShaped t) : ∃ c tl, t = c :: tl := by
  rcases h with ⟨a, b, _, _, _, _, rfl⟩ | ⟨a, _, _, rfl⟩ | ⟨c, _, rfl⟩
  · exact ⟨'<', _, rfl⟩
  · exact ⟨'<', _, rfl⟩
  · exact ⟨c, [], rfl⟩

/-- The encoding scan on a concatenation of shaped tokens encodes each
token as one id (`vocab.get(token, unk)`), provided the fuel covers the
text. -/
theorem encodeGo_flatten (vocab : Vocab) (unkId : Nat) :
    ∀ ts : List (List Char), (∀ t ∈ ts, CondShaped t ∨ CtrlShaped t ∨ CharShaped t) →
      ∀ f, (ts.flatten).length ≤ f →
        encodeGo vocab unkId f ts.flatten =
          ts.map (fun t => vocabGetD vocab t unkId) := by
  intro ts
  induction ts with
  | nil => intro _ f _; cases f <;> simp [encodeGo]
  | cons t ts ih =>
    intro hsh f hf
    have hts := fun u hu => hsh u (List.mem_cons_of_mem _ hu)
    have hsh_t := hsh t (List.mem_cons_self _ _)
    have hm : matchSpecial (t ++ ts.flatten) = some (t, ts.flatten) ∨
        (∃ c, t = [c] ∧ matchSpecial (t ++ ts.flatten) = none) := by
      rcases hsh_t with hc | hc | hc
      · exact Or.inl (matchSpecial_cond hc)
      · exact Or.inl (matchSpecial_ctrl hc)
      · obtain ⟨c, hne, rfl⟩ := hc
        exact Or.inr ⟨c, rfl, matchSpecial_char hne⟩
    obtain ⟨c, tl, htc⟩ := shaped_cons hsh_t
    subst htc
    simp only [List.flatten_cons, List.cons_append] at hm hf ⊢
    cases f with
    | zero => simp at hf
    | succ f =>
      have hlen : (tl ++ ts.flatten).length ≤ f := by
        simp only [List.length_cons] at hf; omega
      have hlen2 : (ts.flatten).length ≤ f := by
        simp only [List.length_append] at hlen; omega
      rcases hm with hm | ⟨c', hc', hm⟩
      · simp only [encodeGo, hm, List.map_cons]
        exact congrArg _ (ih hts f hlen2)
      · have : tl = [] := by simpa using congrArg List.tail hc'
        subst this
        simp only [encodeGo, hm, List.map_cons]
        exact congrArg _ (ih hts f (by simpa using hlen))

/-- With `skip_special_tokens` unset, `decode` renders every id. -/
theorem decodeToks_false (vocab : Vocab) :
    ∀ ids : List Nat, decodeToks vocab false ids = ids.map (renderTok vocab) := by
  intro ids
  induction ids with
  | nil => rfl
  | cons i ids ih => simp [decodeToks, ih]

/-- With `skip_special_tokens` set, `decode` renders every id and drops
exactly the renderings equal to one of the four control literals. -/
theorem decodeToks_true (vocab : Vocab) :
    ∀ ids : List Nat, decodeToks vocab true ids =
      (ids.map (renderTok vocab)).filter (fun s => !isControlLiteral s) := by
  intro ids
  induction ids with
  | nil => rfl
  | cons i ids ih =>
    by_cases h : isControlLiteral (renderTok vocab i) <;>
      simp [decodeToks, List.filter_cons, h, ih]

/-- A list mapping to pairwise-distinct images has no two elements with the
same image. -/
theorem nodup_map_inj {α β : Type} {f : α → β} :
    ∀ {l : List α}, (l.map f).Nodup → ∀ x ∈ l, ∀ y ∈ l, f x = f y → x = y := by
  intro l
  induction l with
  | nil => intro _ x hx; cases hx
  | cons a l ih =>
    intro hnd x hx y hy hf
    rw [List.map_cons, List.nodup_cons] at hnd
    rcases List.mem_cons.1 hx with hx1 | hx2
    · rcases List.mem_cons.1 hy with hy1 | hy2
      · rw [hx1, hy1]
      · exact absurd (show f a ∈ l.map f by
          rw [← hx1, hf]; exact List.mem_map_of_mem f hy2) hnd.1
    · rcases List.mem_cons.1 hy with hy1 | hy2
      · exact absurd (show f a ∈ l.map f by
          rw [← hy1, ← hf]; exact List.mem_map_of_mem f hx2) hnd.1
      · exact ih hnd.2 x hx2 y hy2 hf

/-- `find?` returns the unique element satisfying the predicate. -/
theorem find?_unique {α : Type} {p : α → Bool} :
    ∀ {l : List α} {x : α}, x ∈ l → p x = true →
      (∀ y ∈ l, p y = true → y = x) → l.find? p = some x := by
  intro l
  induction l with
  | nil => intro x hx; cases hx
  | cons a l ih =>
    intro x hx hp huniq
    by_cases ha : p a
    · rw [List.find?_cons_of_pos _ ha, huniq a (List.mem_cons_self _ _) ha]
    · rw [List.find?_cons_of_neg _ ha]
      rcases List.mem_cons.1 hx with rfl | hx
      · exact absurd hp ha
      · exact ih hx hp (fun y hy => huniq y (List.mem_cons_of_mem _ hy))

/-- When ids are pairwise distinct, the inverted mapping sends the id of an
entry back to its token string. -/
theorem renderTok_of_mem {vocab : Vocab} {t : List Char} {i : Nat}
    (hvals : (vocab.map Prod.snd).Nodup) (hmem : (t, i) ∈ vocab) :
    renderTok vocab i = t := by
  have hfind : vocab.reverse.find? (fun p => p.2 == i) = some (t, i) := by
    apply find?_unique (List.mem_reverse.2 hmem) (by simp)
    intro y hy hpy
    have hy' := List.mem_reverse.1 hy
    have hsnd : y.2 = i := by simpa using hpy
    have := nodup_map_inj hvals y hy' (t, i) hmem (by simpa using hsnd)
    simp [this]
  simp [renderTok, idToToken, hfind]

/-- When keys are pairwise distinct, `vocab.get` finds an entry's id. -/
theorem lookup_of_mem {vocab : Vocab} {t : List Char} {i : Nat}
    (hkeys : (vocab.map Prod.fst).Nodup) (hmem : (t, i) ∈ vocab) :
    vocab.lookup t = some i := by
  induction vocab with
  | nil => cases hmem
  | cons kv rest ih =>
    rw [List.map_cons, List.nodup_cons] at hkeys
    rcases List.mem_cons.1 hmem with rfl | hmem'
    · simp [List.lookup]
    · have hne : t ≠ kv.1 := by
        intro he
        exact hkeys.1
          (he ▸ (List.mem_map_of_mem Prod.fst hmem' : (t, i).1 ∈ rest.map Prod.fst))
      cases kv with
      | mk k v =>
        have hbeq : (t == k) = false := by simpa using hne
        simp only [List.lookup, hbeq]
        exact ih hkeys.2 hmem'

theorem map_id_of_mem {α : Type} {f : α → α} :
    ∀ {l : List α}, (∀ a ∈ l, f a = a) → l.map f = l := by
  intro l
  induction l with
  | nil => intro _; rfl
  | cons a l ih =>
    intro h
    rw [List.map_cons, h a (List.mem_cons_self _ _),
      ih (fun b hb => h b (List.mem_cons_of_mem _ hb))]

/-- C1: for every bijective vocabulary (distinct token strings, distinct
ids) and every text that is a concatenation of vocabulary tokens of the
documented shapes (condition `<[A-Z_]+:[A-Z_]+>`, control `<[A-Z]+>`, or a
single non-`<` character), decoding the encoding with `add_bos = false` and
`skip_special_tokens = false` returns the text exactly. -/
theorem claim_C1_theorem (vocab : Vocab) (ts : List (List Char))
    (hkeys : (vocab.map Prod.fst).Nodup) (hvals : (vocab.map Prod.snd).Nodup)
    (hts : ∀ t ∈ ts,
      (CondShaped t ∨ CtrlShaped t ∨ CharShaped t) ∧ ∃ i, (t, i) ∈ vocab) :
    decode (tokInit vocab) (encode (tokInit vocab) ts.flatten false) false =
      ts.flatten := by
  have he : encode (tokInit vocab) ts.flatten false =
      ts.map (fun t => vocabGetD vocab t (tokInit vocab).unk_token_id) := by
    simp only [encode, tokInit, Bool.false_eq_true, if_neg, List.nil_append,
      ite_false]
    exact encodeGo_flatten _ _ ts (fun t ht => (hts t ht).1) _ le_rfl
  rw [decode, he, decodeToks_false, List.map_map]
  show (ts.map (renderTok vocab ∘
      fun t => vocabGetD vocab t (tokInit vocab).unk_token_id)).flatten = ts.flatten
  have hid : ∀ t ∈ ts,
      (renderTok vocab ∘ fun t => vocabGetD vocab t (tokInit vocab).unk_token_id) t
        = t := by
    intro t ht
    obtain ⟨i, hi⟩ := (hts t ht).2
    show renderTok vocab (vocabGetD vocab t _) = t
    rw [vocabGetD, lookup_of_mem hkeys hi, Option.getD_some]
    exact renderTok_of_mem hvals hi
  rw [map_id_of_mem hid]

/-- An example vocabulary of the documented shape, used to instantiate the
universally quantified tokenizer theorems. -/
def exVocab : Vocab :=
  [(bosTok, 0), (padTok, 1), (eosTok, 2), (unkTok, 3),
   ("A".toList, 4), ("C".toList, 5), ("G".toList, 6), ("T".toList, 7),
   (seqTok, 8), ("<HOST:ECOLI>".toList, 9)]

/-- C1, witness: the round trip on the concrete text
`"<HOST:ECOLI><SEQ>AC"` over `exVocab`. -/
theorem claim_C1_witness :
    decode (tokInit exVocab)
      (encode (tokInit exVocab) "<HOST:ECOLI><SEQ>AC".toList false) false =
      "<HOST:ECOLI><SEQ>AC".toList := by
  have h := claim_C1_theorem exVocab
    ["<HOST:ECOLI>".toList, seqTok, "A".toList, "C".toList]
    (by decide) (by decide) ?_
  · have e : (["<HOST:ECOLI>".toList, seqTok, "A".toList, "C".toList] :
        List (List Char)).flatten = "<HOST:ECOLI><SEQ>AC".toList := by decide
    rw [e] at h
    exact h
  · intro t ht
    have ht' : t = "<HOST:ECOLI>".toList ∨ t = seqTok ∨ t = "A".toList ∨
        t = "C".toList := by simpa using ht
    rcases ht' with rfl | rfl | rfl | rfl
    · exact ⟨Or.inl ⟨"HOST".toList, "ECOLI".toList, by decide, by decide,
        by decide, by decide, by decide⟩, 9, by decide⟩
    · exact ⟨Or.inr (Or.inl ⟨"SEQ".toList, by decide, by decide, by decide⟩),
        8, by decide⟩
    · exact ⟨Or.inr (Or.inr ⟨'A', by decide, by decide⟩), 4, by decide⟩
    · exact ⟨Or.inr (Or.inr ⟨'C', by decide, by decide⟩), 5, by decide⟩

/-- C8: decoding is total — every id renders, an id absent from the
vocabulary rendering as the literal unknown-token string `"<UNK>"` — and with
`skip_special_tokens` set exactly the four control literals
(begin/end/pad/unknown) are omitted while any rendering containing `:`
(in particular every condition token) is kept verbatim. -/
theorem claim_C8_theorem (t : Tokenizer) (ids : List Nat) :
    decode t ids false = (ids.map (renderTok t.vocab)).flatten ∧
    decode t ids true =
      ((ids.map (renderTok t.vocab)).filter
        (fun s => !isControlLiteral s)).flatten ∧
    (∀ i, (∀ p ∈ t.vocab, p.2 ≠ i) → renderTok t.vocab i = unkTok) ∧
    (∀ i, ':' ∈ renderTok t.vocab i →
      decode t [i] true = renderTok t.vocab i) := by
  refine ⟨by rw [decode, decodeToks_false], by rw [decode, decodeToks_true], ?_, ?_⟩
  · intro i hi
    have hfind : t.vocab.reverse.find? (fun p => p.2 == i) = none := by
      rw [List.find?_eq_none]
      intro y hy
      simpa using hi y (List.mem_reverse.1 hy)
    simp [renderTok, idToToken, hfind]
  · intro i hcol
    have hnc : isControlLiteral (renderTok t.vocab i) = false := by
      have hb : renderTok t.vocab i ≠ bosTok := fun h => absurd (h ▸ hcol) (by decide)
      have he : renderTok t.vocab i ≠ eosTok := fun h => absurd (h ▸ hcol) (by decide)
      have hp : renderTok t.vocab i ≠ padTok := fun h => absurd (h ▸ hcol) (by decide)
      have hu : renderTok t.vocab i ≠ unkTok := fun h => absurd (h ▸ hcol) (by decide)
      simp [isControlLiteral, hb, he, hp, hu]
    simp [decode, decodeToks, hnc]

/-- C8, witness: over `exVocab`, the unmapped id 99 renders as `"<UNK>"`,
and the condition token id 9 survives a control-skipping decode. -/
theorem claim_C8_witness :
    renderTok exVocab 99 = unkTok ∧
    decode (tokInit exVocab) [9] true = "<HOST:ECOLI>".toList := by
  constructor
  · exact (claim_C8_theorem (tokInit exVocab) []).2.2.1 99 (by decide)
  · have h := (claim_C8_theorem (tokInit exVocab) []).2.2.2 9 (by decide)
    exact h.trans (by decide)

/-- C4, amended: vocabulary loading never fails and performs no validation.
A required control token absent from the mapping silently receives the
fallback id (`<BOS>` → 0, `<EOS>` → 2, `<PAD>` → 1, `<UNK>` → 3), and a
non-bijective mapping is accepted, the inverted map resolving every present
id to one of the token strings carrying it (the last inserted) and every
absent id to nothing; the constructor always produces a usable vocabulary. -/
theorem claim_C4_theorem (vocab : Vocab) :
    (vocab.lookup bosTok = none → (tokInit vocab).bos_token_id = 0) ∧
    (vocab.lookup eosTok = none → (tokInit vocab).eos_token_id = 2) ∧
    (vocab.lookup padTok = none → (tokInit vocab).pad_token_id = 1) ∧
    (vocab.lookup unkTok = none → (tokInit vocab).unk_token_id = 3) ∧
    (∀ i k, idToToken vocab i = some k → (k, i) ∈ vocab) ∧
    (∀ i, (∀ p ∈ vocab, p.2 ≠ i) → idToToken vocab i = none) := by
  refine ⟨fun h => by simp [tokInit, vocabGetD, h],
    fun h => by simp [tokInit, vocabGetD, h],
    fun h => by simp [tokInit, vocabGetD, h],
    fun h => by simp [tokInit, vocabGetD, h], ?_, ?_⟩
  · intro i k h
    rw [idToToken, Option.map_eq_some'] at h
    obtain ⟨p, hp, hpk⟩ := h
    have hmem := List.mem_reverse.1 (List.mem_of_find?_eq_some hp)
    have hpi : p.2 = i := by simpa using List.find?_some hp
    have : p = (k, i) := by
      cases p
      simp_all
    exact this ▸ hmem
  · intro i hi
    rw [idToToken, Option.map_eq_none', List.find?_eq_none]
    intro y hy
    simpa using hi y (List.mem_reverse.1 hy)

/-- C4, witness: instantiation of the amended claim on the control-free,
non-bijective mapping `vocabC4`. -/
theorem claim_C4_witness :
    (tokInit vocabC4).bos_token_id = 0 ∧ idToToken vocabC4 7 = none := by
  constructor
  · exact (claim_C4_theorem vocabC4).1 (by decide)
  · exact (claim_C4_theorem vocabC4).2.2.2.2.2 7 (by decide)

/-- C6: `validate_dna_sequence` applies its four checks in the exact order
empty → invalid characters → too short → too long, reporting the first
failure: each outcome is equivalent to the conjunction of its own trigger
with the failure of every earlier check, and success is equivalent to
passing all four. -/
theorem claim_C6_theorem (s : List Char) :
    (validate_dna_sequence s = .emptySequence ↔ s = []) ∧
    (∀ X, validate_dna_sequence s = .invalidCharacters X ↔
      (s ≠ [] ∧ X = offendingChars s ∧ offendingChars s ≠ ∅)) ∧
    (∀ n, validate_dna_sequence s = .tooShort n ↔
      (s ≠ [] ∧ offendingChars s = ∅ ∧ n = s.length ∧ s.length < 100)) ∧
    (∀ n, validate_dna_sequence s = .tooLong n ↔
      (s ≠ [] ∧ offendingChars s = ∅ ∧ 100 ≤ s.length ∧ n = s.length ∧
        50000 < s.length)) ∧
    (validate_dna_sequence s = .ok ↔
      (s ≠ [] ∧ offendingChars s = ∅ ∧ 100 ≤ s.length ∧ s.length ≤ 50000)) := by
  rw [validate_dna_sequence]
  split_ifs with h1 h2 h3 h4 <;>
    simp only [List.isEmpty_iff] at h1 <;>
    refine ⟨?_, fun X => ?_, fun n => ?_, fun n => ?_, ?_⟩ <;>
    simp_all <;>
    first
      | omega
      | exact eq_comm

set_option maxRecDepth 8192 in
/-- C6, witness: the spec's examples — a 100-bp ATGC string validates, and
`"ATGN"` reports the offender set `{N}`. -/
theorem claim_C6_witness :
    validate_dna_sequence ((List.replicate 25 "ATGC".toList).flatten) = .ok ∧
    validate_dna_sequence "ATGN".toList = .invalidCharacters {'N'} := by
  constructor
  · exact (claim_C6_theorem _).2.2.2.2.mpr ⟨by decide, by decide, by decide, by decide⟩
  · exact ((claim_C6_theorem _).2.1 {'N'}).mpr ⟨by decide, by decide, by decide⟩

/-- An annotation that settles the copy-number loop: origin-like and
matching at least one curated origin set. -/
def annDecides (a : AnnIn) : Bool :=
  isOriginLike a &&
    (high_copy_origins.any (fun o => strContains a.name o) ||
     medium_copy_origins.any (fun o => strContains a.name o) ||
     low_copy_origins.any (fun o => strContains a.name o))

/-- C3, amended: the loop of `estimate_copy_number` is annotation-major,
not tier-major: the first annotation in list order that is origin-like and
matches any curated set decides the tier (the high-copy set checked first
within that annotation).  In particular, if no earlier annotation decides
and some annotation is origin-like with a high-copy name, the result is the
High tier — but an earlier low-copy origin overrides a later high-copy one
(see the counterexample). -/
theorem claim_C3_theorem (seq : List Char) (pre post : List AnnIn) (a : AnnIn)
    (hpre : ∀ b ∈ pre, annDecides b = false)
    (ha : isOriginLike a = true)
    (hhigh : high_copy_origins.any (fun o => strContains a.name o) = true) :
    estimate_copy_number seq (pre ++ a :: post) = highCopyStr := by
  have hloop : copyFromAnns (pre ++ a :: post) = some highCopyStr := by
    induction pre with
    | nil => simp [copyFromAnns, ha, hhigh]
    | cons b pre ih =>
      have hb := hpre b (List.mem_cons_self _ _)
      have ih' := ih (fun c hc => hpre c (List.mem_cons_of_mem _ hc))
      rw [annDecides] at hb
      by_cases hob : isOriginLike b
      · have hsets : (high_copy_origins.any (fun o => strContains b.name o) ||
            medium_copy_origins.any (fun o => strContains b.name o) ||
            low_copy_origins.any (fun o => strContains b.name o)) = false := by
          cases hx : (high_copy_origins.any (fun o => strContains b.name o) ||
            medium_copy_origins.any (fun o => strContains b.name o) ||
            low_copy_origins.any (fun o => strContains b.name o)) with
          | false => rfl
          | true => rw [hob, hx] at hb; simp at hb
        simp only [Bool.or_eq_false_iff] at hsets
        simp [copyFromAnns, hob, hsets.1.1, hsets.1.2, hsets.2, ih']
      · simp only [Bool.not_eq_true] at hob
        simp [copyFromAnns, hob, ih']
  have hne : (pre ++ a :: post).isEmpty = false := by
    cases pre <;> simp
  rw [estimate_copy_number, hne]
  simp [hloop]

/-- C3, witness: the spec's example — a 20000-bp sequence with a
`pUC ori` origin annotation (preceded by a non-origin ORF annotation)
estimates High, overriding the length-based fallback. -/
theorem claim_C3_witness :
    estimate_copy_number (List.replicate 20000 'A')
      [{ name := "ORF_1".toList, ty := "ORF".toList },
       { name := "pUC ori".toList, ty := "origin".toList }] = highCopyStr := by
  exact claim_C3_theorem _ [{ name := "ORF_1".toList, ty := "ORF".toList }] []
    { name := "pUC ori".toList, ty := "origin".toList }
    (by decide) (by decide) (by decide)

/-! ## Extraction lemmas -/

/-- Python's `max(l, key=len)` keeps the current best on ties and replaces
it on a strictly longer element; the result is either the initial best
(with nothing in the list longer) or an element of the list that is longer
than the initial best, longer than everything before it, and at least as
long as everything after it. -/
theorem pyMaxGo_spec :
    ∀ (l : List (List Char)) (best : List Char),
      (pyMaxGo best l = best ∧ ∀ m ∈ l, m.length ≤ best.length) ∨
      (∃ l₁ l₂, l = l₁ ++ pyMaxGo best l :: l₂ ∧
        best.length < (pyMaxGo best l).length ∧
        (∀ m ∈ l₁, m.length < (pyMaxGo best l).length) ∧
        (∀ m ∈ l₂, m.length ≤ (pyMaxGo best l).length)) := by
  intro l
  induction l with
  | nil => intro best; exact Or.inl ⟨rfl, by simp⟩
  | cons m rest ih =>
    intro best
    by_cases h : best.length < m.length
    · have hgo : pyMaxGo best (m :: rest) = pyMaxGo m rest := by
        simp [pyMaxGo, if_pos h]
      rcases ih m with ⟨heq, hall⟩ | ⟨l₁, l₂, hsplit, hlt, hl₁, hl₂⟩
      · refine Or.inr ⟨[], rest, ?_, ?_, by simp, ?_⟩
        · rw [hgo, heq]; rfl
        · rw [hgo, heq]; exact h
        · rw [hgo, heq]; exact hall
      · refine Or.inr ⟨m :: l₁, l₂, ?_, ?_, ?_, ?_⟩
        · rw [hgo, List.cons_append, ← hsplit]
        · rw [hgo]; exact h.trans hlt
        · intro x hx
          rcases List.mem_cons.1 hx with rfl | hx
          · rw [hgo]; exact hlt
          · rw [hgo]; exact hl₁ x hx
        · rw [hgo]; exact hl₂
    · have hgo : pyMaxGo best (m :: rest) = pyMaxGo best rest := by
        simp [pyMaxGo, if_neg h]
      rcases ih best with ⟨heq, hall⟩ | ⟨l₁, l₂, hsplit, hlt, hl₁, hl₂⟩
      · refine Or.inl ⟨by rw [hgo, heq], ?_⟩
        intro x hx
        rcases List.mem_cons.1 hx with rfl | hx
        · omega
        · exact hall x hx
      · refine Or.inr ⟨m :: l₁, l₂, ?_, ?_, ?_, ?_⟩
        · rw [hgo, List.cons_append, ← hsplit]
        · rw [hgo]; exact hlt
        · intro x hx
          rcases List.mem_cons.1 hx with rfl | hx
          · rw [hgo]; omega
          · rw [hgo]; exact hl₁ x hx
        · rw [hgo]; exact hl₂

/-- On a nonempty list, Python's `max(l, key=len)` returns the first
element of maximal length: an element of the list, at least as long as
every element, with everything before it strictly shorter. -/
theorem pyMaxLen_spec (l : List (List Char)) (hne : l ≠ []) :
    ∃ l₁ l₂, l = l₁ ++ pyMaxLen l :: l₂ ∧
      (∀ m ∈ l, m.length ≤ (pyMaxLen l).length) ∧
      (∀ m ∈ l₁, m.length < (pyMaxLen l).length) := by
  cases l with
  | nil => exact absurd rfl hne
  | cons h t =>
    have hgo : pyMaxLen (h :: t) = pyMaxGo h t := rfl
    rcases pyMaxGo_spec t h with ⟨heq, hall⟩ | ⟨l₁, l₂, hsplit, hlt, hl₁, hl₂⟩
    · refine ⟨[], t, ?_, ?_, by simp⟩
      · rw [hgo, heq]; rfl
      · intro m hm
        rcases List.mem_cons.1 hm with rfl | hm
        · rw [hgo, heq]
        · rw [hgo, heq]; exact hall m hm
    · refine ⟨h :: l₁, l₂, ?_, ?_, ?_⟩
      · rw [hgo, List.cons_append, ← hsplit]
      · intro m hm
        rcases List.mem_cons.1 hm with rfl | hm
        · rw [hgo]; exact le_of_lt hlt
        · rw [hsplit] at hm
          rcases List.mem_append.1 hm with hm | hm
          · rw [hgo]; exact le_of_lt (hl₁ m hm)
          · rcases List.mem_cons.1 hm with rfl | hm
            · rw [hgo]
            · rw [hgo]; exact hl₂ m hm
      · intro m hm
        rcases List.mem_cons.1 hm with rfl | hm
        · rw [hgo]; exact hlt
        · rw [hgo]; exact hl₁ m hm

/-- C7: `extract_dna_from_generated_text` returns, when some maximal
case-insensitive nucleotide run of the token-stripped text qualifies
(length ≥ `min_length`), the longest qualifying run with ties broken by
earliest position — the result splits the qualifying-run list with all
runs no longer than it and all earlier runs strictly shorter — and
otherwise the nucleotide-filtered stripped text when that is long enough
and the empty string when it is not. -/
theorem claim_C7_theorem (text : List Char) (min_length : Nat) :
    (validMatches text min_length = [] →
      extract_dna_from_generated_text text min_length =
        (if min_length ≤ (cleanedText text).length then cleanedText text
         else [])) ∧
    (validMatches text min_length ≠ [] →
      ∃ l₁ l₂, validMatches text min_length =
          l₁ ++ extract_dna_from_generated_text text min_length :: l₂ ∧
        (∀ m ∈ validMatches text min_length,
          m.length ≤ (extract_dna_from_generated_text text min_length).length) ∧
        (∀ m ∈ l₁,
          m.length < (extract_dna_from_generated_text text min_length).length)) := by
  constructor
  · intro hnil
    rw [extract_dna_from_generated_text]
    rw [if_pos (by rw [hnil]; rfl)]
  · intro hne
    rw [extract_dna_from_generated_text,
      if_neg (by simpa [List.isEmpty_iff] using hne)]
    exact pyMaxLen_spec _ hne

/-- The generated text of the spec's extraction example. -/
def exText : List Char :=
  "<SEQ>".toList ++ (List.replicate 30 "ATGC".toList).flatten ++ "<EOS>".toList

set_option maxRecDepth 8192 in
/-- C7, witness: instantiation on `"<SEQ>" ++ "ATGC"*30 ++ "<EOS>"` with
`min_length = 100`, whose qualifying-run list is nonempty. -/
theorem claim_C7_witness :
    ∃ l₁ l₂, validMatches exText 100 =
        l₁ ++ extract_dna_from_generated_text exText 100 :: l₂ ∧
      (∀ m ∈ validMatches exText 100,
        m.length ≤ (extract_dna_from_generated_text exText 100).length) ∧
      (∀ m ∈ l₁,
        m.length < (extract_dna_from_generated_text exText 100).length) :=
  (claim_C7_theorem exText 100).2 (by decide)

/-- Every character of every run produced by the run splitter is a
nucleotide letter (either case). -/
theorem splitRunsGo_chars :
    ∀ (s cur : List Char), (∀ c ∈ cur, isNucCI c = true) →
      ∀ r ∈ splitRunsGo cur s, ∀ c ∈ r, isNucCI c = true := by
  intro s
  induction s with
  | nil =>
    intro cur hcur r hr c hc
    rw [splitRunsGo] at hr
    split_ifs at hr
    · cases hr
    · rcases List.mem_singleton.1 hr with rfl
      exact hcur c (List.mem_reverse.1 hc)
  | cons x s ih =>
    intro cur hcur r hr c hc
    rw [splitRunsGo] at hr
    split_ifs at hr with h1 h2
    · refine ih (x :: cur) ?_ r hr c hc
      intro d hd
      rcases List.mem_cons.1 hd with rfl | hd
      · exact h1
      · exact hcur d hd
    · exact ih [] (by simp) r hr c hc
    · rcases List.mem_cons.1 hr with rfl | hr
      · exact hcur c (List.mem_reverse.1 hc)
      · exact ih [] (by simp) r hr c hc

/-- A nucleotide letter uppercases to one of A/C/G/T. -/
theorem isNucCI_toUpper {c : Char} (h : isNucCI c = true) :
    c.toUpper = 'A' ∨ c.toUpper = 'C' ∨ c.toUpper = 'G' ∨ c.toUpper = 'T' := by
  simp only [isNucCI, Bool.or_eq_true, decide_eq_true_eq] at h
  rcases h with ((((((rfl | rfl) | rfl) | rfl) | rfl) | rfl) | rfl) | rfl <;> decide

/-- The test `c.upper() in 'ATGC'` passing means the kept character
`c.upper()` is one of A/C/G/T. -/
theorem isNucUpper_toUpper {c : Char} (h : isNucUpper c = true) :
    c.toUpper = 'A' ∨ c.toUpper = 'C' ∨ c.toUpper = 'G' ∨ c.toUpper = 'T' := by
  rw [isNucUpper] at h
  simp only [Bool.or_eq_true, decide_eq_true_eq] at h
  tauto

/-- C10: the string returned by `extract_dna_from_generated_text` is either
empty or has length at least `min_length` and consists only of the
uppercase characters A, C, G, T — lower-case nucleotides from the input are
uppercased in the result. -/
theorem claim_C10_theorem (text : List Char) (min_length : Nat) :
    extract_dna_from_generated_text text min_length = [] ∨
    (min_length ≤ (extract_dna_from_generated_text text min_length).length ∧
      ∀ c ∈ extract_dna_from_generated_text text min_length,
        c = 'A' ∨ c = 'C' ∨ c = 'G' ∨ c = 'T') := by
  rw [extract_dna_from_generated_text]
  by_cases hval : (validMatches text min_length).isEmpty
  · rw [if_pos hval]
    by_cases hlen : min_length ≤ (cleanedText text).length
    · rw [if_pos hlen]
      refine Or.inr ⟨hlen, ?_⟩
      intro c hc
      rw [cleanedText] at hc
      obtain ⟨d, hd, rfl⟩ := List.mem_map.1 hc
      exact isNucUpper_toUpper (List.mem_filter.1 hd).2
    · rw [if_neg hlen]; exact Or.inl rfl
  · rw [if_neg hval]
    have hne : validMatches text min_length ≠ [] := by
      simpa [List.isEmpty_iff] using hval
    set M := pyMaxLen (validMatches text min_length) with hM
    have hmem : M ∈ validMatches text min_length := by
      obtain ⟨l₁, l₂, hsplit, -, -⟩ := pyMaxLen_spec _ hne
      rw [← hM] at hsplit
      rw [hsplit]
      exact List.mem_append.2 (Or.inr (List.mem_cons_self _ _))
    rw [validMatches] at hmem
    obtain ⟨r, hr, hru⟩ := List.mem_map.1 hmem
    have hrf := List.mem_filter.1 hr
    refine Or.inr ⟨?_, ?_⟩
    · rw [← hru, List.length_map]
      simpa using hrf.2
    · intro c hc
      rw [← hru] at hc
      obtain ⟨d, hd, rfl⟩ := List.mem_map.1 hc
      exact isNucCI_toUpper (splitRunsGo_chars _ [] (by simp) r hrf.1 d hd)

def exText10 : List Char := "some noise atg<TOK>ccendxyz".toList

set_option maxRecDepth 4096 in
/-- C10, witness: the theorem instantiated on a text whose extraction falls
back to the filtered branch; the conclusion is closed and checked on the
computed result. -/
theorem claim_C10_witness :
    extract_dna_from_generated_text exText10 5 = [] ∨
    (5 ≤ (extract_dna_from_generated_text exText10 5).length ∧
      ∀ c ∈ extract_dna_from_generated_text exText10 5,
        c = 'A' ∨ c = 'C' ∨ c = 'G' ∨ c = 'T') :=
  claim_C10_theorem exText10 5

/-! ## ORF scanning lemmas -/

/-- The accumulator loop over one strand/frame is position-major: appending
the per-position hit of each scanned codon position in order.  This is the
characterization behind the amended C2. -/
theorem scanFrameAcc_filterMap (s : List Char) (lim min_length : Nat) :
    ∀ (count pos : Nat) (acc : List (Nat × Nat)),
      scanFrameAcc s lim min_length count pos acc =
        acc ++ (List.range' pos count 3).filterMap (scanPos s lim min_length) := by
  intro count
  induction count with
  | zero => intro pos acc; simp [scanFrameAcc]
  | succ c ih =>
    intro pos acc
    rw [scanFrameAcc, List.range']
    cases hp : scanPos s lim min_length pos with
    | some h => rw [ih]; simp [List.filterMap_cons, hp, List.append_assoc]
    | none => rw [ih]; simp [List.filterMap_cons, hp]

/-- C2, amended: the `break` in `find_orfs` leaves only the inner
stop-codon loop, so the outer scan of a strand/frame resumes at the codon
immediately after the start codon (`start + 3`), not after the consumed
stop codon.  Each codon position of the frame is evaluated independently
(the scan is exactly a `filterMap` of the per-position hit over the codon
positions `frame, frame+3, …`), so start codons nested between an emitted
start and its stop also emit their ORFs, sharing that stop codon. -/
theorem claim_C2_theorem (s : List Char) (lim min_length count pos : Nat)
    (acc : List (Nat × Nat)) :
    scanFrameAcc s lim min_length count pos acc =
      acc ++ (List.range' pos count 3).filterMap (scanPos s lim min_length) :=
  scanFrameAcc_filterMap s lim min_length count pos acc

/-- Every position the inner loop inspects is `pos + 3·j` for some `j`
less than the iteration count. -/
theorem findStopFrom_bounds {s : List Char} :
    ∀ {c pos e : Nat}, findStopFrom s c pos = some e → ∃ j < c, e = pos + 3 * j := by
  intro c
  induction c with
  | zero => intro pos e h; cases h
  | succ c ih =>
    intro pos e h
    rw [findStopFrom] at h
    split_ifs at h with hstop
    · exact ⟨0, Nat.succ_pos _, by simpa using (Option.some_inj.1 h).symm⟩
    · obtain ⟨j, hj, rfl⟩ := ih h
      exact ⟨j + 1, by omega, by ring⟩

/-- A hit emitted at codon position `frame + 3·i` starts there, spans at
least one codon beyond its start, and its stop codon ends within the loop
bound `frame + 3·count`. -/
theorem scanPos_sound {s : List Char} {frame count min_length i : Nat}
    (hi : i < count) {h : Nat × Nat}
    (hp : scanPos s (frame + 3 * count) min_length (frame + 3 * i) = some h) :
    h.1 = frame + 3 * i ∧ h.1 + 3 ≤ h.2 ∧ h.2 + 3 ≤ frame + 3 * count := by
  rw [scanPos] at hp
  split_ifs at hp with hstart
  · cases hfind : findStopFrom s
        ((frame + 3 * count - (frame + 3 * i + 3)) / 3) (frame + 3 * i + 3) with
    | none => rw [hfind] at hp; cases hp
    | some e =>
      rw [hfind] at hp
      dsimp only at hp
      split_ifs at hp with hlen
      obtain ⟨j, hj, rfl⟩ := findStopFrom_bounds hfind
      obtain rfl : h = (frame + 3 * i, frame + 3 * i + 3 + 3 * j) :=
        (Option.some_inj.1 hp).symm
      refine ⟨rfl, by simp, ?_⟩
      simp only
      omega

/-- Soundness of a whole-frame scan: every hit is inherited from the
accumulator or satisfies the span bounds within the sequence. -/
theorem scanFrame_sound {s : List Char} {min_length frame : Nat}
    {acc : List (Nat × Nat)} {h : Nat × Nat}
    (hmem : h ∈ scanFrame s min_length frame acc) :
    h ∈ acc ∨ (h.1 + 3 ≤ h.2 ∧ h.2 + 3 ≤ s.length) := by
  rw [scanFrame, scanFrameAcc_filterMap] at hmem
  rcases List.mem_append.1 hmem with hmem | hmem
  · exact Or.inl hmem
  · right
    obtain ⟨pos, hpos, hp⟩ := List.mem_filterMap.1 hmem
    obtain ⟨i, hi, rfl⟩ := List.mem_range'.1 hpos
    have := scanPos_sound hi hp
    have hlim : frame + 3 * ((s.length - frame) / 3) ≤ s.length := by omega
    omega

/-- The reverse complement preserves length. -/
theorem reverseComplement_length (s : List Char) :
    (reverseComplement s).length = s.length := by
  simp [reverseComplement]

/-- Every raw hit of the six nested scans satisfies the span bounds. -/
theorem rawOrfs_sound {seq : List Char} {min_length : Nat} {p : Bool × Nat × Nat}
    (hmem : p ∈ rawOrfs seq min_length) :
    p.2.1 + 3 ≤ p.2.2 ∧ p.2.2 + 3 ≤ seq.length := by
  have three : ∀ (s : List Char) (h : Nat × Nat),
      h ∈ scanFrame s min_length 2 (scanFrame s min_length 1
        (scanFrame s min_length 0 [])) →
      h.1 + 3 ≤ h.2 ∧ h.2 + 3 ≤ s.length := by
    intro s h hm
    rcases scanFrame_sound hm with hm | hb
    · rcases scanFrame_sound hm with hm | hb
      · rcases scanFrame_sound hm with hm | hb
        · cases hm
        · exact hb
      · exact hb
    · exact hb
  rcases List.mem_append.1 hmem with hm | hm
  · obtain ⟨h, hh, rfl⟩ := List.mem_map.1 hm
    exact three seq h hh
  · obtain ⟨h, hh, rfl⟩ := List.mem_map.1 hm
    have := three (reverseComplement seq) h hh
    rwa [reverseComplement_length] at this

/-- Membership is preserved by the stable insertion used for sorting. -/
theorem mem_insByStart {o a : Orf} :
    ∀ {l : List Orf}, o ∈ insByStart a l → o = a ∨ o ∈ l := by
  intro l
  induction l with
  | nil => intro h; rw [insByStart] at h; simpa using h
  | cons b l ih =>
    intro h
    rw [insByStart] at h
    split_ifs at h
    · rcases List.mem_cons.1 h with rfl | h
      · exact Or.inr (List.mem_cons_self _ _)
      · rcases ih h with rfl | h
        · exact Or.inl rfl
        · exact Or.inr (List.mem_cons_of_mem _ h)
    · rcases List.mem_cons.1 h with rfl | h
      · exact Or.inl rfl
      · exact Or.inr h

/-- Membership is preserved by the sort. -/
theorem mem_sortByStart {o : Orf} :
    ∀ {l acc : List Orf}, o ∈ l.foldl (fun acc a => insByStart a acc) acc →
      o ∈ acc ∨ o ∈ l := by
  intro l
  induction l with
  | nil => intro acc h; exact Or.inl h
  | cons a l ih =>
    intro acc h
    rcases ih h with h' | h'
    · rcases mem_insByStart h' with rfl | h''
      · exact Or.inr (List.mem_cons_self _ _)
      · exact Or.inl h''
    · exact Or.inr (List.mem_cons_of_mem _ h')

/-- Bounds of one assembled ORF annotation, on either strand. -/
theorem mkOrf_bounds {n k : Nat} {fwd : Bool} {h : Nat × Nat}
    (h1 : h.1 + 3 ≤ h.2) (h2 : h.2 + 3 ≤ n) :
    (mkOrf n k fwd h).start < (mkOrf n k fwd h).stop ∧ (mkOrf n k fwd h).stop ≤ n := by
  cases fwd <;> simp only [mkOrf, if_pos, if_neg, Bool.false_eq_true,
    not_false_eq_true, ite_true, ite_false] <;> omega

/-- A successful search step matched the pattern at the returned offset. -/
theorem findFromAux_sound {s p : List Char} :
    ∀ {c i pos : Nat}, findFromAux s p c i = some pos →
      (s.drop pos).take p.length = p := by
  intro c
  induction c with
  | zero => intro i pos h; cases h
  | succ c ih =>
    intro i pos h
    rw [findFromAux] at h
    split_ifs at h with hm
    · obtain rfl : i = pos := Option.some_inj.1 h
      simpa using hm
    · exact ih h

/-- A found occurrence of a nonempty pattern lies within the text. -/
theorem strFindFrom_bounds {s p : List Char} {start pos : Nat}
    (hp : p ≠ []) (h : strFindFrom s p start = some pos) :
    pos + p.length ≤ s.length := by
  have hma := findFromAux_sound h
  have hlen := congrArg List.length hma
  rw [List.length_take, List.length_drop] at hlen
  have hpl : 0 < p.length := List.length_pos.2 hp
  omega

/-- Bounds of every RBS annotation emitted by the overlapping scan. -/
theorem rbsScan_bounds {sUpper : List Char} :
    ∀ {fuel start : Nat} {f : Feature}, f ∈ rbsScan sUpper fuel start →
      f.start < f.stop ∧ f.stop ≤ sUpper.length := by
  intro fuel
  induction fuel with
  | zero => intro start f h; cases h
  | succ fuel ih =>
    intro start f h
    rw [rbsScan] at h
    cases hfind : strFindFrom sUpper rbsPattern start with
    | none => rw [hfind] at h; cases h
    | some pos =>
      rw [hfind] at h
      rcases List.mem_cons.1 h with rfl | h
      · have := strFindFrom_bounds (by decide) hfind
        refine ⟨by simp [rbsPattern], ?_⟩
        simpa [rbsPattern] using this
      · exact ih h

/-- Bounds of every annotation of `find_common_features`. -/
theorem find_common_features_sound {s : List Char} {f : Feature}
    (hmem : f ∈ find_common_features s) :
    f.start < f.stop ∧ f.stop ≤ s.length := by
  have hmotif : ∀ (ty : List Char) (nm : List Char × List Char),
      nm.2 ≠ [] → motifFeature (s.map Char.toUpper) ty nm = some f →
      f.start < f.stop ∧ f.stop ≤ s.length := by
    intro ty nm hne hf
    rw [motifFeature] at hf
    cases hfind : strFindFrom (s.map Char.toUpper) nm.2 0 with
    | none => rw [hfind] at hf; cases hf
    | some pos =>
      rw [hfind] at hf
      obtain rfl := Option.some_inj.1 hf
      have := strFindFrom_bounds hne hfind
      rw [List.length_map] at this
      have hpl : 0 < nm.2.length := List.length_pos.2 hne
      exact ⟨by simpa using hpl, this⟩
  rw [find_common_features] at hmem
  rcases List.mem_append.1 hmem with hm | hm
  · rcases List.mem_append.1 hm with hm | hm
    · obtain ⟨nm, hnm, hf⟩ := List.mem_filterMap.1 hm
      have hall : ∀ x ∈ promoters, x.2 ≠ [] := by decide
      exact hmotif _ nm (hall nm hnm) hf
    · obtain ⟨nm, hnm, hf⟩ := List.mem_filterMap.1 hm
      have hall : ∀ x ∈ terminators, x.2 ≠ [] := by decide
      exact hmotif _ nm (hall nm hnm) hf
  · have := rbsScan_bounds hm
    rwa [List.length_map] at this

/-- C9: every annotation returned by `find_orfs` — on either strand, after
the reverse-strand coordinate remapping — and by `find_common_features`
satisfies `start < end ≤ length(sequence)` (with `start ≥ 0` holding by the
proved `end + 3 ≤ length` bound before the reverse-strand subtraction, so
no coordinate underflows), for every input sequence. -/
theorem claim_C9_theorem (seq : List Char) (min_length : Nat) :
    (∀ o ∈ find_orfs seq min_length, o.start < o.stop ∧ o.stop ≤ seq.length) ∧
    (∀ f ∈ find_common_features seq, f.start < f.stop ∧ f.stop ≤ seq.length) := by
  refine ⟨?_, fun f hf => find_common_features_sound hf⟩
  intro o ho
  rw [find_orfs, sortByStart] at ho
  rcases mem_sortByStart ho with ho | ho
  · cases ho
  · obtain ⟨p, hp, rfl⟩ := List.mem_map.1 ho
    have hraw := List.snd_mem_of_mem_enum hp
    have hb := rawOrfs_sound hraw
    exact mkOrf_bounds hb.1 hb.2

def seqRbs : List Char := "CCAGGAGGCC".toList

def featW : Feature :=
  { name := "RBS".toList, ty := "RBS".toList, start := 2, stop := 8, strand := '+' }

def orfW : Orf :=
  { ty := "ORF".toList, start := 0, stop := 9, strand := '+', length := 9,
    name := "ORF_1".toList }

/-- C9, witness: the invariant instantiated on a concrete emitted ORF (on
`"ATGATGTAA"`) and a concrete emitted RBS feature (on `"CCAGGAGGCC"`). -/
theorem claim_C9_witness :
    (orfW.start < orfW.stop ∧ orfW.stop ≤ seqC2.length) ∧
    (featW.start < featW.stop ∧ featW.stop ≤ seqRbs.length) :=
  ⟨(claim_C9_theorem seqC2 6).1 orfW (by decide),
   (claim_C9_theorem seqRbs 300).2 featW (by decide)⟩

end PlasmidSpace
